import Mathlib

/-!
Verification of the scheduler/UI excerpt of this Bevy fork.

The executor embedding follows `src/crates/bevy_ecs/src/schedule/executor.rs`,
the UI focus embedding follows `src/crates/bevy_ui/src/focus.rs`, and the text
constraint embedding follows `src/crates/bevy_widget/src/text.rs`.
Machine floats (`f32`, `f64`) are modelled as rationals; panics are modelled as
`Except.error`.
-/

namespace BevySpec

/-- A data partition identifier (a component type tag or resource tag). -/
abbrev DataPartition := Nat

/-- The data store the systems read and write, modelled as an assignment of an
integer value to every data partition. -/
abbrev World := DataPartition → Int

/-- Modelled from the spec: `SystemContainer` itself lives outside the excerpt
(`executor.rs` only consumes it).  Per spec section 3 a container carries a
stable name, explicit ordering constraints (`before` / `after` naming other
containers), and a per-tick `should_run` cache that AND-combines the
run-conditions; the executor only calls `should_run()` and
`system_mut().run((), world)`, modelled by the `should_run` flag and the
`system` state transformer. -/
structure SystemContainer where
  name : String
  should_run : Bool
  system : World → World
  before : List String
  after : List String

/-- `pub struct SingleThreadedExecutor;` — a unit struct with no fields. -/
structure SingleThreadedExecutor where
deriving DecidableEq

/-- `SingleThreadedExecutor::rebuild_cached_data`: the body is empty
(`fn rebuild_cached_data(&mut self, _: &[SystemContainer]) {}`), so the
executor state is returned unchanged for every container slice. -/
def rebuild_cached_data (e : SingleThreadedExecutor)
    (_ : List SystemContainer) : SingleThreadedExecutor := e

/-- `SingleThreadedExecutor::rebuild_cached_data`, with the (vacuous) error
channel made explicit: the Rust body is empty, so the call returns normally on
every input — there is no statement that could raise or report an error. -/
def rebuild_cached_data_checked (e : SingleThreadedExecutor)
    (_ : List SystemContainer) : Except String SingleThreadedExecutor :=
  Except.ok e

/-- `SingleThreadedExecutor::run_systems`: iterate the slice in order and, for
each container, invoke its system on the current world exactly when
`should_run()` holds. -/
def run_systems : List SystemContainer → World → World
  | [], w => w
  | s :: rest, w =>
      run_systems rest (if s.should_run then s.system w else w)

/-- Instrumented `run_systems`: additionally records, in invocation order, each
container whose system body was invoked, paired with the world it was invoked
on.  The world component coincides with `run_systems`. -/
def run_systems_trace :
    List SystemContainer → World → World × List (SystemContainer × World)
  | [], w => (w, [])
  | s :: rest, w =>
      if s.should_run then
        let r := run_systems_trace rest (s.system w)
        (r.1, (s, w) :: r.2)
      else run_systems_trace rest w

/-- Fallback container used to read a list position. -/
def defaultContainer : SystemContainer := ⟨"", false, id, [], []⟩

/-- The container at position `k` of the slice. -/
def nthContainer (systems : List SystemContainer) (k : Nat) : SystemContainer :=
  systems.getD k defaultContainer

theorem run_systems_append (u v : List SystemContainer) (w : World) :
    run_systems (u ++ v) w = run_systems v (run_systems u w) := by
  induction u generalizing w with
  | nil => rfl
  | cons s rest ih => simp [run_systems, ih]

theorem run_systems_trace_fst (systems : List SystemContainer) (w : World) :
    (run_systems_trace systems w).1 = run_systems systems w := by
  induction systems generalizing w with
  | nil => rfl
  | cons s rest ih =>
      by_cases h : s.should_run <;> simp [run_systems_trace, run_systems, h, ih]

theorem run_systems_trace_append (u v : List SystemContainer) (w : World) :
    (run_systems_trace (u ++ v) w).2
      = (run_systems_trace u w).2
        ++ (run_systems_trace v (run_systems u w)).2 := by
  induction u generalizing w with
  | nil => rfl
  | cons s rest ih =>
      by_cases h : s.should_run <;>
        simp [run_systems_trace, run_systems, h, ih]

/-- The container at a runnable position `k` is invoked on the world obtained
by running the prefix of the slice before `k`. -/
theorem run_systems_trace_mem (systems : List SystemContainer) (w : World)
    (k : Nat) (hk : k < systems.length)
    (hr : (nthContainer systems k).should_run = true) :
    (nthContainer systems k, run_systems (systems.take k) w)
      ∈ (run_systems_trace systems w).2 := by
  have hget : nthContainer systems k = systems[k] :=
    List.getD_eq_getElem _ _ hk
  have hr' : systems[k].should_run = true := by rw [← hget]; exact hr
  have hsplit : (run_systems_trace systems w).2
      = (run_systems_trace (systems.take k) w).2
        ++ (run_systems_trace (systems.drop k)
              (run_systems (systems.take k) w)).2 := by
    conv_lhs => rw [← List.take_append_drop k systems]
    exact run_systems_trace_append _ _ _
  rw [hsplit, hget]
  refine List.mem_append_right _ ?_
  rw [List.drop_eq_getElem_cons hk]
  simp [run_systems_trace, hr']

/-- C1: `run_systems` executes exactly the containers whose `should_run()`
returns `true`: the containers invoked in a tick (in order, each on the current
world) are precisely the `should_run` containers of the slice; a container
with `should_run() = false` is never invoked. -/
theorem run_systems_runs_exactly_should_run
    (systems : List SystemContainer) (w : World) :
    ((run_systems_trace systems w).2.map Prod.fst)
      = systems.filter fun s => s.should_run := by
  induction systems generalizing w with
  | nil => rfl
  | cons s rest ih =>
      cases h : s.should_run with
      | true => simp [run_systems_trace, h, ih, List.filter_cons]
      | false => simp [run_systems_trace, h, ih, List.filter_cons]

/-- C2: the sequential executor processes the slice in its fixed list order:
when positions `i < j` both run, the container at `j` is invoked on the world
`run_systems (systems.take j) w`, and that world already has the system at `i`
fully applied (its input being the world after the prefix before `i`), followed
by the containers strictly between `i` and `j`. -/
theorem run_systems_seq_order (systems : List SystemContainer) (w : World)
    (i j : Nat) (hij : i < j) (hj : j < systems.length)
    (hri : (nthContainer systems i).should_run = true)
    (hrj : (nthContainer systems j).should_run = true) :
    (nthContainer systems j, run_systems (systems.take j) w)
      ∈ (run_systems_trace systems w).2
    ∧ run_systems (systems.take j) w
      = run_systems ((systems.take j).drop (i + 1))
          ((nthContainer systems i).system (run_systems (systems.take i) w)) := by
  have hi : i < systems.length := lt_trans hij hj
  refine ⟨run_systems_trace_mem systems w j hj hrj, ?_⟩
  have htake : systems.take j
      = systems.take (i + 1) ++ (systems.take j).drop (i + 1) := by
    conv_lhs => rw [← List.take_append_drop (i + 1) (systems.take j)]
    rw [List.take_take, min_eq_left hij]
  have hget : nthContainer systems i = systems[i] :=
    List.getD_eq_getElem _ _ hi
  have hsucc : systems.take (i + 1)
      = systems.take i ++ [nthContainer systems i] := by
    rw [List.take_succ, List.getElem?_eq_getElem hi, hget]
    rfl
  conv_lhs => rw [htake]
  rw [run_systems_append, hsucc, run_systems_append]
  simp [run_systems, hri]

/-- A world used as a concrete initial data store in witnesses. -/
def w0 : World := fun _ => 0

/-- Concrete container incrementing every partition. -/
def wcA : SystemContainer := ⟨"A", true, fun w p => w p + 1, [], []⟩

/-- Concrete container leaving the world unchanged. -/
def wcB : SystemContainer := ⟨"B", true, id, [], []⟩

/-- Witness for C2 at the concrete slice `[wcA, wcB]`, positions `0 < 1`. -/
theorem run_systems_seq_order_witness :
    (nthContainer [wcA, wcB] 1, run_systems ([wcA, wcB].take 1) w0)
      ∈ (run_systems_trace [wcA, wcB] w0).2
    ∧ run_systems ([wcA, wcB].take 1) w0
      = run_systems (([wcA, wcB].take 1).drop 1)
          ((nthContainer [wcA, wcB] 0).system (run_systems ([wcA, wcB].take 0) w0)) :=
  run_systems_seq_order [wcA, wcB] w0 0 1 (by decide) (by decide) rfl rfl

/-- C3: a container whose run-condition is false causes no data-store mutation
that tick: the final world equals the one produced by running only the
runnable containers. -/
theorem run_systems_skipped_no_mutation
    (systems : List SystemContainer) (w : World) :
    run_systems systems w
      = run_systems (systems.filter fun s => s.should_run) w := by
  induction systems generalizing w with
  | nil => rfl
  | cons s rest ih =>
      cases h : s.should_run with
      | true => simp [run_systems, h, ih, List.filter_cons]
      | false => simp [run_systems, h, ih, List.filter_cons]

/-- Modelled from the spec: a container whose wrapped logic may raise an
unrecoverable error (a panic) while executing; the panic is modelled as
`Except.error`, normal completion as `Except.ok` (spec failure semantics,
section 4.4 / 7). -/
structure FallibleContainer where
  name : String
  should_run : Bool
  system : World → Except String World

/-- The `run_systems` loop over fallible containers: a panic inside one
system's execution unwinds out of the loop and propagates to the caller, so no
further iteration happens after an error. -/
def run_systems_fallible : List FallibleContainer → World → Except String World
  | [], w => Except.ok w
  | s :: rest, w =>
      if s.should_run then
        match s.system w with
        | Except.ok w2 => run_systems_fallible rest w2
        | Except.error e => Except.error e
      else run_systems_fallible rest w

/-- Instrumented `run_systems_fallible`, additionally recording, in order, the
containers whose system body was invoked. -/
def run_systems_fallible_trace :
    List FallibleContainer → World → Except String World × List FallibleContainer
  | [], w => (Except.ok w, [])
  | s :: rest, w =>
      if s.should_run then
        match s.system w with
        | Except.ok w2 =>
            let r := run_systems_fallible_trace rest w2
            (r.1, s :: r.2)
        | Except.error e => (Except.error e, [s])
      else run_systems_fallible_trace rest w

theorem run_systems_fallible_trace_fst
    (systems : List FallibleContainer) (w : World) :
    (run_systems_fallible_trace systems w).1 = run_systems_fallible systems w := by
  induction systems generalizing w with
  | nil => rfl
  | cons s rest ih =>
      cases h : s.should_run with
      | true =>
          cases hs : s.system w with
          | ok w2 => simp [run_systems_fallible_trace, run_systems_fallible, h, hs, ih]
          | error e => simp [run_systems_fallible_trace, run_systems_fallible, h, hs]
      | false => simp [run_systems_fallible_trace, run_systems_fallible, h, ih]

theorem run_systems_fallible_trace_append_ok
    (pre rest : List FallibleContainer) (w w' : World)
    (hpre : run_systems_fallible pre w = Except.ok w') :
    run_systems_fallible_trace (pre ++ rest) w
      = ((run_systems_fallible_trace rest w').1,
         (run_systems_fallible_trace pre w).2
           ++ (run_systems_fallible_trace rest w').2) := by
  induction pre generalizing w with
  | nil =>
      have : w = w' := by
        simpa [run_systems_fallible] using hpre
      subst this
      simp [run_systems_fallible_trace]
  | cons s pre' ih =>
      cases h : s.should_run with
      | true =>
          cases hs : s.system w with
          | ok w2 =>
              have hpre' : run_systems_fallible pre' w2 = Except.ok w' := by
                rw [run_systems_fallible, if_pos h, hs] at hpre
                exact hpre
              simp [run_systems_fallible_trace, h, hs, ih w2 hpre']
          | error e =>
              rw [run_systems_fallible, if_pos h, hs] at hpre
              exact absurd hpre (by simp)
      | false =>
          have hpre' : run_systems_fallible pre' w = Except.ok w' := by
            rw [run_systems_fallible, if_neg (by simp [h])] at hpre
            exact hpre
          simp [run_systems_fallible_trace, h, ih w hpre']

/-- C4: if the container `s` panics while executing (after the prefix `pre`
retired normally), the error is surfaced to the caller of `run_systems` as the
result of the whole call, and no container after `s` is invoked that tick: the
invocation trace ends at `s`. -/
theorem run_systems_panic_halts
    (pre post : List FallibleContainer) (s : FallibleContainer)
    (w w' : World) (e : String)
    (hpre : run_systems_fallible pre w = Except.ok w')
    (hs : s.should_run = true) (herr : s.system w' = Except.error e) :
    run_systems_fallible (pre ++ s :: post) w = Except.error e
    ∧ (run_systems_fallible_trace (pre ++ s :: post) w).2
        = (run_systems_fallible_trace pre w).2 ++ [s] := by
  have htr := run_systems_fallible_trace_append_ok pre (s :: post) w w' hpre
  have hstep : run_systems_fallible_trace (s :: post) w' = (Except.error e, [s]) := by
    simp [run_systems_fallible_trace, hs, herr]
  constructor
  · rw [← run_systems_fallible_trace_fst, htr, hstep]
  · rw [htr, hstep]

/-- Concrete fallible container that succeeds without touching the world. -/
def fcOk : FallibleContainer := ⟨"ok", true, fun w => Except.ok w⟩

/-- Concrete fallible container that panics. -/
def fcBoom : FallibleContainer := ⟨"boom", true, fun _ => Except.error "panic"⟩

/-- Concrete fallible container placed after the panicking one. -/
def fcAfter : FallibleContainer := ⟨"after", true, fun w => Except.ok w⟩

/-- Witness for C4 at the concrete slice `[fcOk, fcBoom, fcAfter]`. -/
theorem run_systems_panic_halts_witness :
    run_systems_fallible ([fcOk] ++ fcBoom :: [fcAfter]) w0 = Except.error "panic"
    ∧ (run_systems_fallible_trace ([fcOk] ++ fcBoom :: [fcAfter]) w0).2
        = (run_systems_fallible_trace [fcOk] w0).2 ++ [fcBoom] :=
  run_systems_panic_halts [fcOk] [fcAfter] fcBoom w0 w0 "panic" rfl rfl rfl

/-- Concrete container declaring the explicit constraint `A before B`. -/
def containerA : SystemContainer := ⟨"A", true, id, ["B"], []⟩

/-- Concrete container declaring the explicit constraint `B before A`,
closing the cycle with `containerA`. -/
def containerB : SystemContainer := ⟨"B", true, id, ["A"], []⟩

/-- Counterexample for C5: the container set `[containerA, containerB]`
carries the cyclic explicit constraints `A before B` and `B before A`, yet
`rebuild_cached_data` returns normally with the executor state unchanged —
no error naming the participants (nor any error at all) is produced. -/
theorem rebuild_accepts_cycle :
    ("B" ∈ containerA.before ∧ "A" ∈ containerB.before)
    ∧ rebuild_cached_data_checked SingleThreadedExecutor.mk
        [containerA, containerB] = Except.ok SingleThreadedExecutor.mk
    ∧ rebuild_cached_data SingleThreadedExecutor.mk [containerA, containerB]
        = SingleThreadedExecutor.mk :=
  ⟨⟨by decide, by decide⟩, rfl, rfl⟩

/-- C5 (amended): `SingleThreadedExecutor::rebuild_cached_data` performs no
validation at all: it accepts every container set — cyclic explicit ordering
constraints included — without error and leaves the executor state unchanged;
no cycle rejection happens in this executor's rebuild. -/
theorem rebuild_never_rejects (e : SingleThreadedExecutor)
    (systems : List SystemContainer) :
    rebuild_cached_data_checked e systems = Except.ok e
    ∧ rebuild_cached_data e systems = e :=
  ⟨rfl, rfl⟩

/-- C6: `rebuild_cached_data` is idempotent: a second rebuild on the same
container set leaves the executor in the same state as a single rebuild. -/
theorem rebuild_idempotent (e : SingleThreadedExecutor)
    (systems : List SystemContainer) :
    rebuild_cached_data (rebuild_cached_data e systems) systems
      = rebuild_cached_data e systems :=
  rfl

/-- `bevy_math::Vec2`; the `f32` coordinates are modelled as rationals (the
claims below only compare coordinates, no float arithmetic is involved). -/
structure Vec2 where
  x : ℚ
  y : ℚ
deriving DecidableEq

/-- `Interaction` (focus.rs): what type of input interaction occurred for a
UI node. -/
inductive Interaction where
  | Clicked
  | Hovered
  | None
deriving DecidableEq

/-- `Interaction::DEFAULT` is `None`. -/
instance : Inhabited Interaction := ⟨Interaction.None⟩

/-- `InteractionPolicy` (focus.rs): whether `Interaction` stays `Clicked`
after the cursor stops hovering the node. -/
inductive InteractionPolicy where
  | Hold
  | Release
deriving DecidableEq

/-- `#[default]` is `Hold`. -/
instance : Inhabited InteractionPolicy := ⟨InteractionPolicy.Hold⟩

/-- `RelativeCursorPosition` (focus.rs): cursor position relative to the size
and position of the node; `none` means the cursor position is unknown. -/
structure RelativeCursorPosition where
  normalized : Option Vec2
deriving DecidableEq

/-- `RelativeCursorPosition::mouse_over`:
`self.normalized.map(|p| (0.0..1.).contains(&p.x) && (0.0..1.).contains(&p.y)).unwrap_or(false)`;
`Range::contains` on `0.0..1.` is the half-open test `0 <= v && v < 1`. -/
def mouse_over (r : RelativeCursorPosition) : Bool :=
  (r.normalized.map fun position =>
      (decide (0 ≤ position.x) && decide (position.x < 1))
        && (decide (0 ≤ position.y) && decide (position.y < 1))).getD false

/-- C9: `mouse_over` returns `true` iff `normalized` holds a point with both
coordinates in the half-open unit range; in particular it returns `false`
whenever the cursor position is unknown (`normalized = none`). -/
theorem mouse_over_spec (r : RelativeCursorPosition) :
    (mouse_over r = true
      ↔ ∃ p : Vec2, r.normalized = some p
          ∧ 0 ≤ p.x ∧ p.x < 1 ∧ 0 ≤ p.y ∧ p.y < 1)
    ∧ (r.normalized = Option.none → mouse_over r = false) := by
  obtain ⟨_ | p⟩ := r <;> simp [mouse_over, and_assoc]

/-- Witness for C9: a point inside the node and an unknown cursor position. -/
theorem mouse_over_spec_witness :
    mouse_over ⟨some ⟨(1 : ℚ) / 2, (1 : ℚ) / 3⟩⟩ = true
    ∧ mouse_over ⟨Option.none⟩ = false :=
  ⟨(mouse_over_spec ⟨some ⟨(1 : ℚ) / 2, (1 : ℚ) / 3⟩⟩).1.mpr
      ⟨⟨(1 : ℚ) / 2, (1 : ℚ) / 3⟩, rfl, by norm_num, by norm_num, by norm_num,
        by norm_num⟩,
   (mouse_over_spec ⟨Option.none⟩).2 rfl⟩

/-- Lines 261–279 of `ui_focus_system` (focus.rs): the update applied to a
visible node's `Interaction` when the node no longer contains the cursor.  The
policy is `node.interaction_policy.copied().unwrap_or_default()`, and
`set_if_neq(Interaction::None)` fires exactly when the prior interaction is
`Hovered`, the cursor position is unknown, or the policy is `Release`;
otherwise the interaction is left as it is. -/
def nonHoveredInteractionUpdate (cursor_position : Option Vec2)
    (interaction_policy_component : Option InteractionPolicy)
    (interaction : Interaction) : Interaction :=
  let interaction_policy := interaction_policy_component.getD default
  if interaction = Interaction.Hovered
      ∨ cursor_position = Option.none
      ∨ interaction_policy = InteractionPolicy.Release
  then Interaction.None
  else interaction

/-- C8: with a known cursor position, a `Clicked` node with policy `Hold`
(explicitly, or by default when the component is absent) that is no longer
under the cursor stays `Clicked`; and the branch sets an interaction to `None`
only when the prior state was `Hovered`, the cursor position is unknown, or
the policy is `Release`. -/
theorem non_hovered_hold_keeps_clicked :
    (∀ (p : Vec2) (pol : Option InteractionPolicy),
        pol.getD default = InteractionPolicy.Hold →
        nonHoveredInteractionUpdate (some p) pol Interaction.Clicked
          = Interaction.Clicked)
    ∧ (∀ (cp : Option Vec2) (pol : Option InteractionPolicy) (i : Interaction),
        nonHoveredInteractionUpdate cp pol i = Interaction.None →
        i ≠ Interaction.None →
        (i = Interaction.Hovered ∨ cp = Option.none
          ∨ pol.getD default = InteractionPolicy.Release)) := by
  constructor
  · intro p pol hpol
    simp [nonHoveredInteractionUpdate, hpol]
  · intro cp pol i hupd hne
    by_cases hcond : i = Interaction.Hovered ∨ cp = Option.none
        ∨ pol.getD default = InteractionPolicy.Release
    · exact hcond
    · rw [nonHoveredInteractionUpdate, if_neg hcond] at hupd
      exact absurd hupd hne

/-- Witness for C8: a `Clicked` node with no `InteractionPolicy` component and
a known cursor position stays `Clicked`; a `Release` node set to `None` in the
branch satisfies the disjunction. -/
theorem non_hovered_hold_keeps_clicked_witness :
    nonHoveredInteractionUpdate (some ⟨0, 0⟩) Option.none Interaction.Clicked
      = Interaction.Clicked
    ∧ (Interaction.Clicked = Interaction.Hovered
        ∨ (some (Vec2.mk 0 0) : Option Vec2) = Option.none
        ∨ (some InteractionPolicy.Release : Option InteractionPolicy).getD default
            = InteractionPolicy.Release) :=
  ⟨non_hovered_hold_keeps_clicked.1 ⟨0, 0⟩ Option.none rfl,
   non_hovered_hold_keeps_clicked.2 (some ⟨0, 0⟩) (some InteractionPolicy.Release)
     Interaction.Clicked (by decide) (by decide)⟩

/-- Modelled from the spec: `Val` is defined in `ui_node.rs`, which is outside
the excerpt; `text_constraint` matches on `Val::Px` and `Val::Auto` with a
catch-all arm, and its comment ("Needs support for percentages") shows a
`Val::Percent` variant also exists.  `f32` payloads are modelled as rationals. -/
inductive Val where
  | Undefined
  | Auto
  | Px (value : ℚ)
  | Percent (value : ℚ)
deriving DecidableEq

/-- `f32::MAX`, exactly `2^128 - 2^104`, as a rational. -/
def f32Max : ℚ := 340282346638528859811704183484516925440

/-- `scale_value` (text.rs): `(value as f64 * factor) as f32`, modelled over
rationals as plain multiplication (the casts only change precision). -/
def scale_value (value : ℚ) (factor : ℚ) : ℚ := value * factor

/-- `text_constraint` (text.rs): match on `(min_size, size, max_size)` with
arms `(_, _, Px max)`, `(Px min, _, _)`, `(Auto, Px size, Auto)` and a
catch-all returning `f32::MAX`. -/
def text_constraint (min_size size max_size : Val) (scale_factor : ℚ) : ℚ :=
  match min_size, size, max_size with
  | _, _, Val.Px vmax => scale_value vmax scale_factor
  | Val.Px vmin, _, _ => scale_value vmin scale_factor
  | Val.Auto, Val.Px vsize, Val.Auto => scale_value vsize scale_factor
  | _, _, _ => f32Max

/-- C10: `text_constraint` gives `max_size` priority, then `min_size`, uses
`size` only when both `min_size` and `max_size` are `Auto`, and returns
`f32::MAX` in every remaining shape. -/
theorem text_constraint_priority (scale_factor : ℚ) :
    (∀ (min_size size : Val) (vmax : ℚ),
        text_constraint min_size size (Val.Px vmax) scale_factor
          = scale_value vmax scale_factor)
    ∧ (∀ (vmin : ℚ) (size max_size : Val), (∀ v, max_size ≠ Val.Px v) →
        text_constraint (Val.Px vmin) size max_size scale_factor
          = scale_value vmin scale_factor)
    ∧ (∀ vsize : ℚ,
        text_constraint Val.Auto (Val.Px vsize) Val.Auto scale_factor
          = scale_value vsize scale_factor)
    ∧ (∀ min_size size max_size : Val,
        (∀ v, min_size ≠ Val.Px v) → (∀ v, max_size ≠ Val.Px v) →
        ¬(min_size = Val.Auto ∧ max_size = Val.Auto ∧ ∃ v, size = Val.Px v) →
        text_constraint min_size size max_size scale_factor = f32Max) := by
  refine ⟨?_, ?_, ?_, ?_⟩
  · intro min_size size vmax
    cases min_size <;> cases size <;> rfl
  · intro vmin size max_size hmax
    cases max_size <;> cases size <;>
      first
        | rfl
        | exact absurd rfl (hmax _)
  · intro vsize
    rfl
  · intro min_size size max_size hmin hmax hshape
    cases min_size <;> cases size <;> cases max_size <;>
      first
        | rfl
        | exact absurd rfl (hmax _)
        | exact absurd rfl (hmin _)
        | exact absurd ⟨rfl, rfl, _, rfl⟩ hshape

/-- Witness for C10: concrete shapes exercising all four priority branches. -/
theorem text_constraint_priority_witness :
    text_constraint Val.Auto Val.Auto (Val.Px 7) 2 = scale_value 7 2
    ∧ text_constraint (Val.Px 3) Val.Auto Val.Auto 2 = scale_value 3 2
    ∧ text_constraint Val.Auto (Val.Px 5) Val.Auto 2 = scale_value 5 2
    ∧ text_constraint Val.Undefined (Val.Px 5) Val.Auto 2 = f32Max :=
  ⟨(text_constraint_priority 2).1 Val.Auto Val.Auto 7,
   (text_constraint_priority 2).2.1 3 Val.Auto Val.Auto
     (fun _ h => Val.noConfusion h),
   (text_constraint_priority 2).2.2.1 5,
   (text_constraint_priority 2).2.2.2 Val.Undefined (Val.Px 5) Val.Auto
     (fun _ h => Val.noConfusion h) (fun _ h => Val.noConfusion h)
     (fun h => Val.noConfusion h.1)⟩

/-- Modelled from the spec: the access descriptor of a container — two sets of
data-partition identifiers, `reads` and `writes` (spec section 3). -/
structure AccessDescriptor where
  reads : List DataPartition
  writes : List DataPartition
deriving DecidableEq

/-- Modelled from the spec: two containers conflict iff
`writes(A) ∩ writes(B) ≠ ∅` or `writes(A) ∩ reads(B) ≠ ∅` or
`reads(A) ∩ writes(B) ≠ ∅` (spec section 4.2). -/
def conflictsWith (a b : AccessDescriptor) : Bool :=
  decide (∃ p, p ∈ a.writes ∧ p ∈ b.writes)
    || decide (∃ p, p ∈ a.writes ∧ p ∈ b.reads)
    || decide (∃ p, p ∈ a.reads ∧ p ∈ b.writes)

/-- Modelled from the spec: a system container annotated with its access
descriptor.  Its execution contract (spec section 4.1): the system mutates
only the partitions declared in `writes` (`frame_ok`), and the values it
writes are determined by the partitions it may observe, `reads` together with
its exclusively held `writes` (`reads_ok`). -/
structure AccessSystem where
  name : String
  should_run : Bool
  access : AccessDescriptor
  run : World → World
  frame_ok : ∀ w p, p ∉ access.writes → run w p = w p
  reads_ok : ∀ w w', (∀ q, q ∈ access.reads ∨ q ∈ access.writes → w q = w' q) →
    ∀ p, p ∈ access.writes → run w p = run w' p

/-- The sequential executor's loop (`run_systems`), instantiated at
access-annotated containers: iterate in slice order, invoking each system on
the current world exactly when `should_run` holds. -/
def runSeq : List AccessSystem → World → World
  | [], w => w
  | s :: rest, w => runSeq rest (if s.should_run then s.run w else w)

/-- Modelled from the spec: one realizable execution of the conflict-aware
concurrent strategy, presented as the serialization of its system completions.
The strategy's guarantees (spec sections 4.4/5) are hypotheses of the theorem
below: it runs exactly the runnable containers, and conflicting containers
never overlap and retire in their ordering-graph order — the same relative
order the sequential baseline uses. -/
def runLin (l : List AccessSystem) (w : World) : World :=
  l.foldl (fun w s => s.run w) w

theorem runSeq_eq_foldl_filter (systems : List AccessSystem) (w : World) :
    runSeq systems w
      = (systems.filter fun s => s.should_run).foldl (fun w s => s.run w) w := by
  induction systems generalizing w with
  | nil => rfl
  | cons s rest ih =>
      cases h : s.should_run with
      | true => simp [runSeq, h, ih, List.filter_cons]
      | false => simp [runSeq, h, ih, List.filter_cons]

/-- Non-conflicting systems commute on the world. -/
theorem run_comm (a b : AccessSystem)
    (h : conflictsWith a.access b.access = false) (v : World) :
    a.run (b.run v) = b.run (a.run v) := by
  rw [conflictsWith] at h
  have h12 := Bool.or_eq_false_iff.mp h
  have h1 := Bool.or_eq_false_iff.mp h12.1
  have hww := of_decide_eq_false h1.1
  have hwr := of_decide_eq_false h1.2
  have hrw := of_decide_eq_false h12.2
  funext p
  by_cases hpa : p ∈ a.access.writes
  · have hpb : p ∉ b.access.writes := fun hb' => hww ⟨p, hpa, hb'⟩
    have hagree : ∀ q, q ∈ a.access.reads ∨ q ∈ a.access.writes →
        (b.run v) q = v q := by
      intro q hq
      apply b.frame_ok
      rcases hq with hq | hq
      · exact fun hqb => hrw ⟨q, hq, hqb⟩
      · exact fun hqb => hww ⟨q, hq, hqb⟩
    exact (a.reads_ok (b.run v) v hagree p hpa).trans
      (b.frame_ok (a.run v) p hpb).symm
  · by_cases hpb : p ∈ b.access.writes
    · have hagree : ∀ q, q ∈ b.access.reads ∨ q ∈ b.access.writes →
          (a.run v) q = v q := by
        intro q hq
        apply a.frame_ok
        rcases hq with hq | hq
        · exact fun hqa => hwr ⟨q, hqa, hq⟩
        · exact fun hqa => hww ⟨q, hqa, hq⟩
      exact (a.frame_ok (b.run v) p hpa).trans
        (b.reads_ok (a.run v) v hagree p hpb).symm
    · rw [a.frame_ok (b.run v) p hpa, b.frame_ok v p hpb,
        b.frame_ok (a.run v) p hpb, a.frame_ok v p hpa]

theorem pair_sublist_cons {α : Type} {i j x : α} {t : List α}
    (h : [i, j].Sublist (x :: t)) (hi : i ≠ x) : [i, j].Sublist t := by
  cases h with
  | cons _ h' => exact h'
  | cons₂ _ h' => exact absurd rfl hi

theorem sublist_append_cons_of_not_mem {α : Type} {x : α} :
    ∀ (u : List α) {s v : List α}, s.Sublist (u ++ x :: v) → x ∉ s →
      s.Sublist (u ++ v) := by
  intro u
  induction u with
  | nil =>
      intro s v h hx
      cases s with
      | nil => exact List.nil_sublist _
      | cons i s' =>
          cases h with
          | cons _ h' => exact h'
          | cons₂ _ h' => exact absurd (List.mem_cons_self _ _) hx
  | cons y u' ih =>
      intro s v h hx
      cases h with
      | cons _ h' => exact List.Sublist.cons y (ih h' hx)
      | cons₂ _ h' =>
          exact List.Sublist.cons₂ y
            (ih h' fun hm => hx (List.mem_cons_of_mem _ hm))

theorem foldl_bubble {α : Type} (f : α → World → World) (x : α) :
    ∀ (a b : List α) (w : World),
      (∀ y ∈ a, ∀ v, f x (f y v) = f y (f x v)) →
      (a ++ x :: b).foldl (fun w s => f s w) w
        = (a ++ b).foldl (fun w s => f s w) (f x w) := by
  intro a
  induction a with
  | nil => intro b w _; rfl
  | cons y a' ih =>
      intro b w hcomm
      have hy := hcomm y (List.mem_cons_self _ _)
      have hrest : ∀ z ∈ a', ∀ v, f x (f z v) = f z (f x v) :=
        fun z hz => hcomm z (List.mem_cons_of_mem _ hz)
      show (a' ++ x :: b).foldl (fun w s => f s w) (f y w)
        = (a' ++ b).foldl (fun w s => f s w) (f y (f x w))
      rw [ih b (f y w) hrest, hy w]

/-- Folding pairwise-reorderable actions: two executions over the same
(duplicate-free) multiset of actions that agree on the relative order of every
non-commuting pair compute the same final world. -/
theorem foldl_comm_of_order {α : Type} (f : α → World → World) :
    ∀ (l₂ l₁ : List α) (w : World), l₁.Nodup → l₁.Perm l₂ →
      (∀ i j, i ∈ l₁ → j ∈ l₁ → i ≠ j →
        (¬ ∀ v, f i (f j v) = f j (f i v)) →
        ([i, j].Sublist l₁ ↔ [i, j].Sublist l₂)) →
      l₁.foldl (fun w s => f s w) w = l₂.foldl (fun w s => f s w) w := by
  intro l₂
  induction l₂ with
  | nil =>
      intro l₁ w _ hperm _
      rw [hperm.eq_nil]
  | cons x t₂ ih =>
      intro l₁ w hnd hperm horder
      have hx : x ∈ l₁ := hperm.mem_iff.mpr (List.mem_cons_self x t₂)
      obtain ⟨a, b, rfl⟩ := List.append_of_mem hx
      have hnd' := List.nodup_append.mp hnd
      have hxa : x ∉ a := fun hm => hnd'.2.2 hm (List.mem_cons_self _ _)
      have hxb : x ∉ b := (List.nodup_cons.mp hnd'.2.1).1
      have hnd₂ : (x :: t₂).Nodup := hperm.nodup hnd
      have hxt₂ : x ∉ t₂ := (List.nodup_cons.mp hnd₂).1
      have hsubl : (a ++ b).Sublist (a ++ x :: b) :=
        (List.Sublist.refl a).append (List.sublist_cons_self x b)
      have hcomm : ∀ y ∈ a, ∀ v, f x (f y v) = f y (f x v) := by
        intro y hy
        by_contra hc
        have hc' : ¬ ∀ v, f y (f x v) = f x (f y v) :=
          fun hall => hc fun v => (hall v).symm
        have hyx : y ≠ x := fun h => hxa (h ▸ hy)
        have hiff := horder y x (List.mem_append_left _ hy) hx hyx hc'
        have hsub : [y, x].Sublist (a ++ x :: b) :=
          (List.singleton_sublist.mpr hy).append
            (List.singleton_sublist.mpr (List.mem_cons_self _ _))
        have hsub₃ : [y, x].Sublist t₂ :=
          pair_sublist_cons (hiff.mp hsub) hyx
        exact hxt₂ (hsub₃.subset (by simp))
      rw [foldl_bubble f x a b w hcomm]
      show (a ++ b).foldl (fun w s => f s w) (f x w)
        = t₂.foldl (fun w s => f s w) (f x w)
      have hperm' : (a ++ b).Perm t₂ :=
        (List.perm_middle.symm.trans hperm).cons_inv
      have hlift : ∀ z, z ∈ a ++ b → z ∈ a ++ x :: b := fun z hz => by
        rcases List.mem_append.mp hz with h | h
        · exact List.mem_append_left _ h
        · exact List.mem_append_right _ (List.mem_cons_of_mem x h)
      refine ih (a ++ b) (f x w) (hnd.sublist hsubl) hperm' ?_
      intro i j hi hj hne hc
      have hix : i ≠ x := by
        intro h
        rw [h] at hi
        rcases List.mem_append.mp hi with hm | hm
        · exact hxa hm
        · exact hxb hm
      have hjx : j ≠ x := by
        intro h
        rw [h] at hj
        rcases List.mem_append.mp hj with hm | hm
        · exact hxa hm
        · exact hxb hm
      have hiff := horder i j (hlift i hi) (hlift j hj) hne hc
      constructor
      · intro hs
        exact pair_sublist_cons (hiff.mp (hs.trans hsubl)) hix
      · intro hs
        have hxnotpair : x ∉ ([i, j] : List α) := by
          simp only [List.mem_cons, List.not_mem_nil]
          rintro (h | h | h)
          · exact hix h.symm
          · exact hjx h.symm
          · exact h
        exact sublist_append_cons_of_not_mem a
          (hiff.mpr (List.Sublist.cons x hs)) hxnotpair

/-- C7: strategy equivalence.  Any execution the conflict-aware concurrent
strategy can realize — it runs exactly the containers whose run-condition
holds, and every conflicting pair retires in the same relative order as in the
sequential baseline (the ordering-graph order both strategies respect) —
produces the same final data-store state as the sequential executor. -/
theorem strategies_agree (systems : List AccessSystem)
    (l : List AccessSystem) (w : World)
    (hnd : (systems.filter fun s => s.should_run).Nodup)
    (hperm : (systems.filter fun s => s.should_run).Perm l)
    (horder : ∀ a b : AccessSystem,
      a ∈ systems.filter (fun s => s.should_run) →
      b ∈ systems.filter (fun s => s.should_run) →
      a ≠ b → conflictsWith a.access b.access = true →
      ([a, b].Sublist (systems.filter fun s => s.should_run)
        ↔ [a, b].Sublist l)) :
    runLin l w = runSeq systems w := by
  rw [runSeq_eq_foldl_filter]
  refine (foldl_comm_of_order (fun s w => s.run w) l
    (systems.filter fun s => s.should_run) w hnd hperm ?_).symm
  intro i j hi hj hne hc
  by_cases hconf : conflictsWith i.access j.access = true
  · exact horder i j hi hj hne hconf
  · have hfalse : conflictsWith i.access j.access = false :=
      Bool.eq_false_iff.mpr hconf
    exact absurd (fun v => run_comm i j hfalse v) hc

/-- Concrete access-annotated system writing partition 0. -/
def wsA : AccessSystem where
  name := "A"
  should_run := true
  access := ⟨[], [0]⟩
  run := fun w p => if p = 0 then w 0 + 1 else w p
  frame_ok := by
    intro w p hp
    have hne : p ≠ 0 := by simpa using hp
    simp [hne]
  reads_ok := by
    intro w w' h p hp
    have hp0 : p = 0 := by simpa using hp
    subst hp0
    have h0 : w 0 = w' 0 := h 0 (Or.inr (by simp))
    simp [h0]

/-- Concrete access-annotated system writing partition 1. -/
def wsB : AccessSystem where
  name := "B"
  should_run := true
  access := ⟨[], [1]⟩
  run := fun w p => if p = 1 then w 1 + 5 else w p
  frame_ok := by
    intro w p hp
    have hne : p ≠ 1 := by simpa using hp
    simp [hne]
  reads_ok := by
    intro w w' h p hp
    have hp1 : p = 1 := by simpa using hp
    subst hp1
    have h1 : w 1 = w' 1 := h 1 (Or.inr (by simp))
    simp [h1]

/-- Witness for C7: the reversed concurrent-completion order of the two
non-conflicting systems gives the same final world as the sequential order. -/
theorem strategies_agree_witness :
    runLin [wsB, wsA] w0 = runSeq [wsA, wsB] w0 := by
  have hfilter : ([wsA, wsB].filter fun s => s.should_run) = [wsA, wsB] := rfl
  have hne : wsA ≠ wsB := fun h =>
    absurd (congrArg AccessSystem.access h) (by decide)
  refine strategies_agree [wsA, wsB] [wsB, wsA] w0 ?_ ?_ ?_
  · rw [hfilter]
    simp [List.nodup_cons, hne]
  · rw [hfilter]
    exact List.Perm.swap wsB wsA []
  · intro a b ha hb hab hc
    rw [hfilter] at ha hb
    have ha' : a = wsA ∨ a = wsB := by simpa using ha
    have hb' : b = wsA ∨ b = wsB := by simpa using hb
    rcases ha' with rfl | rfl <;> rcases hb' with rfl | rfl
    · exact absurd rfl hab
    · exact absurd hc (by decide)
    · exact absurd hc (by decide)
    · exact absurd rfl hab

end BevySpec
